import Mathlib

/-!
Verification of the idasync folder-synchronization engine (src/index.js).

The engine is embedded shallowly:
* the Pattern Matcher (`IdaSync.matchesPattern`) is modelled by compiling a
  glob pattern to the sequence of regex atoms the JavaScript code builds
  (only `.` is escaped; `*` becomes `[^/]*`, `?` becomes `[^/]`), plus a
  backtracking matcher for that atom language;
* the filesystem is modelled as a flat finite map from relative paths
  (lists of segments) to files, together with a list of directories;
* the Sync Orchestrator (`IdaSync.sync`) is a function over that model,
  returning the result counters (or an error) together with the final
  destination state;
* the Tree Walker error behaviour is modelled over a directory tree whose
  nodes may fail with an I/O error code, mirroring the try/catch around
  readdir in `getFilesRecursively` / `getDirectoriesRecursively`.

Paths use POSIX conventions (separator is the forward slash), matching the
canonical relative-path form of the specification.
-/

namespace IdaSync

/-- Case-insensitive character equality, modelling the `i` flag on the
regular expressions built by `matchesPattern` (ASCII case folding). -/
def charEqI (a b : Char) : Bool := a.toLower == b.toLower

/-- One atom of the compiled pattern, as produced by the replacements in
`matchesPattern` (src/index.js lines 34-40): a literal character (either an
ordinary character left as-is, or an escaped `.`), the class `[^/]`
(from `?`), the starred class `[^/]*` (from `*`), and the two `+`-quantified
atoms that arise when a raw `+` in the pattern is interpreted as a regex
operator applying to the previous atom. -/
inductive GItem where
  | lit : Char → GItem
  | one : GItem
  | many : GItem
  | plusLit : Char → GItem
  | plusOne : GItem
deriving DecidableEq

/-- Regex metacharacters that `matchesPattern` fails to escape and whose
compiled behaviour is outside the plain-glob fragment.  A pattern containing
one of these either makes `new RegExp` throw a SyntaxError (for example an
unbalanced `(` or `[`) or is interpreted as a regex operator; the embedding
maps such patterns to `none`. -/
def metaChar (c : Char) : Bool :=
  ['(', ')', '[', ']', '{', '}', '|', '^', '$'].contains c

/-- Matching of `[^/]*` followed by a continuation: tries every split of the
input into a slash-free chunk consumed by the star and a remainder accepted
by the continuation. -/
def starLoop (k : List Char → Bool) : List Char → Bool
  | [] => k []
  | x :: xs => k (x :: xs) || (decide (x ≠ '/') && starLoop k xs)

/-- Matching of `c*` (zero or more copies of the literal `c`, case
insensitively) followed by a continuation; used for the `c+` atom. -/
def plusLoop (c : Char) (k : List Char → Bool) : List Char → Bool
  | [] => k []
  | x :: xs => k (x :: xs) || (charEqI c x && plusLoop c k xs)

/-- Anchored matching of a compiled atom sequence against a string, i.e. the
language of the regex `^...$` that `matchesPattern` builds and tests. -/
def gmatch : List GItem → List Char → Bool
  | [], s => s.isEmpty
  | .lit _ :: _, [] => false
  | .lit c :: gs, x :: xs => charEqI c x && gmatch gs xs
  | .one :: _, [] => false
  | .one :: gs, x :: xs => decide (x ≠ '/') && gmatch gs xs
  | .many :: gs, s => starLoop (fun t => gmatch gs t) s
  | .plusLit _ :: _, [] => false
  | .plusLit c :: gs, x :: xs => charEqI c x && plusLoop c (fun t => gmatch gs t) xs
  | .plusOne :: _, [] => false
  | .plusOne :: gs, x :: xs => decide (x ≠ '/') && starLoop (fun t => gmatch gs t) xs

/-- Compilation of a (separator-normalized) pattern into regex atoms,
following the replacement chain in src/index.js lines 36-40: `.` is escaped
(so it is a literal), `*` becomes `[^/]*`, `?` becomes `[^/]`, every other
character is passed through to the regex verbatim.  A raw `+` therefore acts
as the regex one-or-more operator on the preceding atom; `+` with nothing to
repeat (at the start, or after `[^/]*`) makes `new RegExp` throw, and the
unescaped metacharacters of `metaChar` are outside the modelled fragment
(for the unbalanced-bracket patterns used in the theorems below, `new
RegExp` genuinely throws a SyntaxError): both cases are mapped to `none`. -/
def compileGlob : List Char → Option (List GItem)
  | [] => some []
  | [c] =>
    if metaChar c then none
    else if c = '+' then none
    else if c = '*' then some [GItem.many]
    else if c = '?' then some [GItem.one]
    else some [GItem.lit c]
  | c :: c2 :: rest =>
    if metaChar c then none
    else if c = '+' then none
    else if c2 = '+' then
      if c = '*' then none
      else if c = '?' then (compileGlob rest).map (fun gs => GItem.plusOne :: gs)
      else (compileGlob rest).map (fun gs => GItem.plusLit c :: gs)
    else
      if c = '*' then (compileGlob (c2 :: rest)).map (fun gs => GItem.many :: gs)
      else if c = '?' then (compileGlob (c2 :: rest)).map (fun gs => GItem.one :: gs)
      else (compileGlob (c2 :: rest)).map (fun gs => GItem.lit c :: gs)

/-- Separator normalization `replace(/\\/g, '/')` applied by
`matchesPattern` to both the candidate path and the pattern. -/
def normalizeSeps (s : List Char) : List Char :=
  s.map (fun c => if c = '\\' then '/' else c)

/-- POSIX `path.basename`: the final slash-separated segment, after trailing
slashes are stripped (src/index.js line 31). -/
def baseName (s : List Char) : List Char :=
  let t := s.reverse.dropWhile (fun c => c = '/')
  if t.isEmpty then (if s.isEmpty then ['.'] else ['/'])
  else (t.takeWhile (fun c => decide (c ≠ '/'))).reverse

/-- One pattern of the `patterns.some(...)` loop: compile the normalized
pattern and test it against the full normalized path when the raw pattern
contains a `/`, and against the base name otherwise.  `none` models a thrown
RegExp SyntaxError. -/
def matchOne (fileName normalized : List Char) (p : String) : Option Bool :=
  match compileGlob (normalizeSeps p.data) with
  | none => none
  | some items =>
    some (gmatch items (if '/' ∈ p.data then normalized else fileName))

/-- Short-circuiting disjunction over the pattern list (`Array.some`): a
pattern that fails to compile is only reached, and only throws, if no
earlier pattern matched. -/
def matchSome (fileName normalized : List Char) : List String → Option Bool
  | [] => some false
  | p :: ps =>
    match matchOne fileName normalized p with
    | none => none
    | some true => some true
    | some false => matchSome fileName normalized ps

/-- `IdaSync.matchesPattern(filePath, patterns)` from src/index.js lines
28-51.  `some b` is the boolean the JavaScript function returns; `none`
models the function throwing a RegExp SyntaxError instead of returning. -/
def matchesPattern (filePath : String) (patterns : List String) : Option Bool :=
  if patterns.isEmpty then some false
  else matchSome (baseName filePath.data) (normalizeSeps filePath.data) patterns

/-! ## Flat filesystem model and the Sync Orchestrator -/

/-- Decidable equality for `Except`, so that concrete runs of the
orchestrator can be evaluated by `decide`. -/
instance {ε α : Type} [DecidableEq ε] [DecidableEq α] : DecidableEq (Except ε α) :=
  fun a b =>
    match a, b with
    | .error x, .error y =>
      if h : x = y then .isTrue (by rw [h])
      else .isFalse (by intro he; cases he; exact h rfl)
    | .ok x, .ok y =>
      if h : x = y then .isTrue (by rw [h])
      else .isFalse (by intro he; cases he; exact h rfl)
    | .error _, .ok _ => .isFalse (by intro h; cases h)
    | .ok _, .error _ => .isFalse (by intro h; cases h)

/-- A relative path, as a list of name segments (canonical separator form:
joining the segments with `/` gives the string the JavaScript code works
with). -/
abbrev RPath := List String

/-- Joining a relative path back into the string form used by the pattern
matcher (POSIX separator). -/
def joinPath (p : RPath) : String := String.intercalate "/" p

/-- A regular file: its modification time (`stat.mtime.getTime()`, an
integer number of milliseconds) and its content bytes.  The stat size is the
byte length of the content. -/
structure FsFile where
  mtime : Int
  content : List Nat
deriving DecidableEq

/-- `stat.size`: the byte size of the file. -/
def FsFile.size (f : FsFile) : Nat := f.content.length

/-- A directory tree, flattened: the regular files reachable under the root
(keyed by relative path), and the relative paths of the directories
reachable under the root.  Walking a tree yields exactly the key set
(specification section 3 invariant for the Tree Walker). -/
structure Fs where
  files : List (RPath × FsFile)
  dirs : List RPath
deriving DecidableEq

/-- File lookup (`fs.stat` on root-joined `p`): the first entry with the
given path, `none` when the path is absent (stat throws ENOENT). -/
def lookupFile : List (RPath × FsFile) → RPath → Option FsFile
  | [], _ => none
  | (q, f) :: rest, p => if q = p then some f else lookupFile rest p

/-- Overwrite-or-append a file entry (`fs.copyFile` to the destination
path). -/
def setFile : List (RPath × FsFile) → RPath → FsFile → List (RPath × FsFile)
  | [], p, f => [(p, f)]
  | (q, g) :: rest, p, f =>
    if q = p then (p, f) :: rest else (q, g) :: setFile rest p f

/-- All proper ancestor directories of a path `q` (the directories that
`fs.mkdir(path.dirname(destPath), { recursive: true })` guarantees). -/
def ancestorDirs (q : RPath) : List RPath :=
  (List.range q.length).map (fun i => q.take (i + 1))

/-- Add the given directories to the directory list, skipping ones already
present. -/
def addDirs (ds : List RPath) : List RPath → List RPath
  | [] => ds
  | d :: rest => addDirs (if d ∈ ds then ds else ds ++ [d]) rest

/-- `IdaSync.copyFile` (src/index.js lines 112-123): create the parent
directories of the destination path, copy the content bytes, then copy the
source modification time onto the destination with `fs.utimes` (the access
time is also copied; access times are not part of the model since nothing
reads them back). -/
def copyFile (dst : Fs) (rel : RPath) (srcFile : FsFile) : Fs :=
  { files := setFile dst.files rel ⟨srcFile.mtime, srcFile.content⟩,
    dirs := addDirs dst.dirs (ancestorDirs rel.dropLast) }

/-- `fs.unlink` of a destination file. -/
def removeFileAt (dst : Fs) (rel : RPath) : Fs :=
  { dst with files := dst.files.filter (fun e => decide (e.1 ≠ rel)) }

/-- `fs.access`: a path is accessible when a file or a directory exists at
it. -/
def pathAccessible (fs : Fs) (p : RPath) : Bool :=
  (lookupFile fs.files p).isSome || fs.dirs.contains p

/-- `q` is an immediate child path of `d` (one segment deeper, extending
`d`): exactly the entries `fs.readdir(d)` reports. -/
def immediateChild (d q : RPath) : Bool :=
  decide (q.length = d.length + 1) && decide (q.take d.length = d)

/-- The emptiness check `(await fs.readdir(destDirPath)).length === 0`: no
file and no directory is an immediate child of `d`. -/
def dirIsEmpty (fs : Fs) (d : RPath) : Bool :=
  fs.files.all (fun e => !immediateChild d e.1) &&
  fs.dirs.all (fun q => !immediateChild d q)

/-- Stable insertion (descending path depth) used to model
`destDirs.sort((a, b) => b.split(path.sep).length - a.split(path.sep).length)`:
an element is placed before the first strictly shallower element. -/
def insertByDepth (d : RPath) : List RPath → List RPath
  | [] => [d]
  | e :: es => if e.length < d.length then d :: e :: es else e :: insertByDepth d es

/-- Sort directories deepest-first (stable, like the V8 `Array.sort`). -/
def sortByDepthDesc (l : List RPath) : List RPath := l.foldr insertByDepth []

/-- One iteration of the cleanup loop (src/index.js lines 230-245): if the
relative path exists in the source (`fs.access` succeeds), leave the
directory alone; otherwise, if the directory still exists and is empty,
remove it.  A directory that is already gone makes `fs.readdir` throw, and
that error is swallowed by the inner catch: the model leaves the state
unchanged in that case. -/
def cleanupStep (src : Fs) (dst : Fs) (d : RPath) : Fs :=
  if pathAccessible src d then dst
  else if d ∈ dst.dirs then
    if dirIsEmpty dst d then
      { dst with dirs := dst.dirs.filter (fun q => decide (q ≠ d)) }
    else dst
  else dst

/-- `IdaSync.cleanupEmptyDirectories` (src/index.js lines 220-246):
enumerate the destination directories, sort them deepest-first, and run the
best-effort removal loop. -/
def cleanupEmptyDirectories (src dst : Fs) : Fs :=
  (sortByDepthDesc dst.dirs).foldl (cleanupStep src) dst

/-- `IdaSync.filesAreDifferent` (src/index.js lines 91-105): stat both
paths; when either stat fails (in particular when the destination does not
exist) the files count as different; otherwise compare the modification
times for exact equality and the byte sizes.  The content bytes are never
consulted. -/
def filesAreDifferent (src dst : Option FsFile) : Bool :=
  match src, dst with
  | some s, some d => decide (s.mtime ≠ d.mtime) || decide (s.size ≠ d.size)
  | _, _ => true

/-- The result record returned by `sync`. -/
structure SyncResult where
  copied : Nat
  deleted : Nat
  skipped : Nat
deriving DecidableEq

/-- Constructor options (the `verbose` flag only controls logging and has no
effect on the returned data, so it is not part of the model). -/
structure SyncConfig where
  copyExclusions : List String := []
  deleteExclusions : List String := []
deriving DecidableEq

/-- Errors that abort a `sync` call: the missing-source hard failure, a
RegExp SyntaxError thrown while compiling an exclusion pattern, and the
stat failure inside `copyFile` when a walked source file has vanished. -/
inductive SyncError where
  | sourceMissing
  | patternInvalid
  | statFailed
deriving DecidableEq

/-- The copy phase (src/index.js lines 166-186): for each source file, a
copy-exclusion match increments `skipped` and skips every other check;
otherwise the file is copied exactly when `filesAreDifferent` says so.
The destination state reached so far is returned alongside the outcome. -/
def copyPhase (cfg : SyncConfig) (src : Fs) :
    List RPath → Fs → Nat → Nat → Except SyncError (Nat × Nat) × Fs
  | [], dst, copied, skipped => (.ok (copied, skipped), dst)
  | rel :: rest, dst, copied, skipped =>
    match matchesPattern (joinPath rel) cfg.copyExclusions with
    | none => (.error .patternInvalid, dst)
    | some true => copyPhase cfg src rest dst copied (skipped + 1)
    | some false =>
      if filesAreDifferent (lookupFile src.files rel) (lookupFile dst.files rel) then
        match lookupFile src.files rel with
        | none => (.error .statFailed, dst)
        | some f => copyPhase cfg src rest (copyFile dst rel f) (copied + 1) skipped
      else copyPhase cfg src rest dst copied skipped

/-- The delete phase (src/index.js lines 188-204): every destination file
absent from the source file set is deleted unless it matches a
delete-exclusion pattern, in which case it is skipped with no counter
change. -/
def deletePhase (cfg : SyncConfig) (sourceFiles : List RPath) :
    List RPath → Fs → Nat → Except SyncError Nat × Fs
  | [], dst, deleted => (.ok deleted, dst)
  | rel :: rest, dst, deleted =>
    if rel ∈ sourceFiles then deletePhase cfg sourceFiles rest dst deleted
    else
      match matchesPattern (joinPath rel) cfg.deleteExclusions with
      | none => (.error .patternInvalid, dst)
      | some true => deletePhase cfg sourceFiles rest dst deleted
      | some false =>
        deletePhase cfg sourceFiles rest (removeFileAt dst rel) (deleted + 1)

/-- `IdaSync.sync` (src/index.js lines 140-214).  `source`/`destination` are
`none` when the corresponding root does not exist.  The very first
filesystem action is the `fs.access` probe of the source; when it fails the
function throws (`SyncError.sourceMissing`) with the destination untouched.
Otherwise the destination root is created if absent, both trees are walked,
and the copy, delete and cleanup phases run in order.  The returned pair is
the JavaScript return value (or thrown error) together with the final
destination state. -/
def sync (cfg : SyncConfig) (source : Option Fs) (destination : Option Fs) :
    Except SyncError SyncResult × Option Fs :=
  match source with
  | none => (.error .sourceMissing, destination)
  | some src =>
    let dst0 := destination.getD { files := [], dirs := [] }
    let sourceFiles := src.files.map Prod.fst
    let destFiles := dst0.files.map Prod.fst
    match copyPhase cfg src sourceFiles dst0 0 0 with
    | (.error e, dst1) => (.error e, some dst1)
    | (.ok (copied, skipped), dst1) =>
      match deletePhase cfg sourceFiles destFiles dst1 0 with
      | (.error e, dst2) => (.error e, some dst2)
      | (.ok deleted, dst2) =>
        let dst3 := cleanupEmptyDirectories src dst2
        (.ok { copied := copied, deleted := deleted, skipped := skipped }, some dst3)

/-! ## Tree Walker error behaviour

`getFilesRecursively` / `getDirectoriesRecursively` wrap each `readdir` in
a try/catch that swallows `ENOENT` (returning an empty list for that
directory) and rethrows every other error.  To verify that behaviour the
walk target is modelled as a directory tree whose nodes either are readable
(yielding a list of entries, in `readdir` order) or make `readdir` throw an
error with a given code. -/

mutual

/-- A directory as seen by `readdir`: either readable with its entries, or
failing with an error code (for a nonexistent directory the code is
`"ENOENT"`). -/
inductive WalkNode where
  | ready : WalkEntries → WalkNode
  | failing : String → WalkNode

/-- The entry list of a readable directory, in `readdir` order. -/
inductive WalkEntries where
  | nil : WalkEntries
  | consFile : String → WalkEntries → WalkEntries
  | consDir : String → WalkNode → WalkEntries → WalkEntries

end

mutual

/-- `IdaSync.getFilesRecursively` (src/index.js lines 59-83): collect the
relative paths of all regular files; an `ENOENT` from `readdir` yields an
empty list for that directory, any other error propagates. -/
def getFilesRecursively : WalkNode → RPath → Except String (List RPath)
  | .failing code, _ => if code = "ENOENT" then .ok [] else .error code
  | .ready entries, pre => walkFilesEntries entries pre

/-- The entry loop of `getFilesRecursively`: files are pushed, directories
are recursed into, errors abort the loop. -/
def walkFilesEntries : WalkEntries → RPath → Except String (List RPath)
  | .nil, _ => .ok []
  | .consFile n rest, pre =>
    (walkFilesEntries rest pre).map (fun tail => (pre ++ [n]) :: tail)
  | .consDir n node rest, pre =>
    match getFilesRecursively node (pre ++ [n]) with
    | .error e => .error e
    | .ok sub =>
      (walkFilesEntries rest pre).map (fun tail => sub ++ tail)

end

mutual

/-- `IdaSync.getDirectoriesRecursively` (src/index.js lines 254-278): same
shape as the file walker, but collecting directory paths (each directory is
pushed before its own subdirectories). -/
def getDirectoriesRecursively : WalkNode → RPath → Except String (List RPath)
  | .failing code, _ => if code = "ENOENT" then .ok [] else .error code
  | .ready entries, pre => walkDirsEntries entries pre

/-- The entry loop of `getDirectoriesRecursively`. -/
def walkDirsEntries : WalkEntries → RPath → Except String (List RPath)
  | .nil, _ => .ok []
  | .consFile _ rest, pre => walkDirsEntries rest pre
  | .consDir n node rest, pre =>
    match getDirectoriesRecursively node (pre ++ [n]) with
    | .error e => .error e
    | .ok sub =>
      (walkDirsEntries rest pre).map (fun tail => ((pre ++ [n]) :: sub) ++ tail)

end

mutual

/-- A node contains a hard failure: some `readdir` in the tree throws with a
code other than `"ENOENT"`. -/
def nodeHasHardFailure : WalkNode → Bool
  | .failing code => decide (code ≠ "ENOENT")
  | .ready entries => entriesHaveHardFailure entries

/-- Entry-list version of `nodeHasHardFailure`. -/
def entriesHaveHardFailure : WalkEntries → Bool
  | .nil => false
  | .consFile _ rest => entriesHaveHardFailure rest
  | .consDir _ node rest => nodeHasHardFailure node || entriesHaveHardFailure rest

end

/-! ## Specification-side pattern semantics (section 4.2 of the spec)

These definitions follow the words of the specification, to be compared
with the code-side `matchesPattern`: `*` matches zero or more characters
excluding the separator, `?` matches exactly one character excluding the
separator, every other character matches itself literally
(case-insensitively), the match is anchored, and pattern and candidate are
first normalized to forward slashes. -/

/-- Anchored glob matching as the specification words it, as a relation
between a (normalized) pattern and a (normalized) candidate string. -/
inductive SpecGlobMatch : List Char → List Char → Prop where
  | nil : SpecGlobMatch [] []
  | lit {c x : Char} {p s : List Char} :
      c ≠ '*' → c ≠ '?' → charEqI c x = true →
      SpecGlobMatch p s → SpecGlobMatch (c :: p) (x :: s)
  | qmark {x : Char} {p s : List Char} :
      x ≠ '/' → SpecGlobMatch p s → SpecGlobMatch ('?' :: p) (x :: s)
  | star {w p s : List Char} :
      (∀ x ∈ w, x ≠ '/') → SpecGlobMatch p s → SpecGlobMatch ('*' :: p) (w ++ s)

/-- The per-pattern-list matching rule of specification section 4.2: some
pattern matches, where a pattern containing a separator (after
normalization) is matched against the full normalized relative path and any
other pattern against the final segment of the normalized path; an empty
list matches nothing. -/
def SpecMatchesPattern (filePath : String) (patterns : List String) : Prop :=
  ∃ p ∈ patterns,
    SpecGlobMatch (normalizeSeps p.data)
      (if '/' ∈ normalizeSeps p.data then normalizeSeps filePath.data
       else baseName (normalizeSeps filePath.data))

/-- A pattern made only of plain characters plus the `*` and `?` wildcards:
no unescaped regex metacharacter, no `+`, and no backslash (its characters
are taken as literals by both the spec rule and the compiled regex). -/
def plainGlob (p : String) : Bool :=
  p.data.all (fun c => !metaChar c && decide (c ≠ '+') && decide (c ≠ '\\'))

/-- A relative path in the canonical separator form (no backslashes), as the
walker produces on POSIX and as the specification data model prescribes. -/
def canonicalPath (fp : String) : Bool := fp.data.all (fun c => decide (c ≠ '\\'))

/-- Compilation of one pattern character in the plain fragment. -/
def toItem (c : Char) : GItem :=
  if c = '*' then .many else if c = '?' then .one else .lit c

/-- All patterns in the list compile to a regular expression (so
`matchesPattern` returns a boolean rather than throwing). -/
def patternsOk (pats : List String) : Bool :=
  pats.all (fun p => (compileGlob (normalizeSeps p.data)).isSome)

/-! ## Lemmas about the pattern matcher -/

theorem starLoop_true_iff (k : List Char → Bool) :
    ∀ s, starLoop k s = true ↔
      ∃ w t, s = w ++ t ∧ (∀ x ∈ w, x ≠ '/') ∧ k t = true := by
  intro s
  induction s with
  | nil =>
    constructor
    · intro h
      refine ⟨[], [], rfl, ?_, by simpa [starLoop] using h⟩
      intro x hx
      cases hx
    · rintro ⟨w, t, hwt, -, hk⟩
      rcases List.append_eq_nil.mp hwt.symm with ⟨hw, ht⟩
      subst hw; subst ht
      simpa [starLoop] using hk
  | cons x xs ih =>
    constructor
    · intro h
      simp only [starLoop, Bool.or_eq_true, Bool.and_eq_true, decide_eq_true_eq] at h
      rcases h with h1 | ⟨hx, hrest⟩
      · refine ⟨[], x :: xs, rfl, ?_, h1⟩
        intro y hy
        cases hy
      · rcases ih.mp hrest with ⟨w, t, rfl, hw, hk⟩
        refine ⟨x :: w, t, rfl, ?_, hk⟩
        intro y hy
        rcases List.mem_cons.mp hy with rfl | hy
        · exact hx
        · exact hw y hy
    · rintro ⟨w, t, hwt, hw, hk⟩
      cases w with
      | nil =>
        simp only [List.nil_append] at hwt
        subst hwt
        simp [starLoop, hk]
      | cons y w' =>
        rw [List.cons_append] at hwt
        injection hwt with h1 h2
        subst h1
        have hrest : starLoop k xs = true :=
          ih.mpr ⟨w', t, h2, fun z hz => hw z (List.mem_cons_of_mem _ hz), hk⟩
        simp only [starLoop, Bool.or_eq_true, Bool.and_eq_true, decide_eq_true_eq]
        exact Or.inr ⟨hw x (List.mem_cons_self ..), hrest⟩

theorem gmatch_nil_iff (s : List Char) : gmatch [] s = true ↔ s = [] := by
  cases s <;> simp [gmatch]

/-- Soundness half: a successful run of the compiled matcher on a plain
pattern is a match in the sense of the specification. -/
theorem specGlobMatch_of_gmatch :
    ∀ (p s : List Char), gmatch (p.map toItem) s = true → SpecGlobMatch p s := by
  intro p
  induction p with
  | nil =>
    intro s h
    rw [List.map_nil, gmatch_nil_iff] at h
    subst h
    exact .nil
  | cons c p ih =>
    intro s h
    by_cases hstar : c = '*'
    · subst hstar
      rw [List.map_cons, show toItem '*' = GItem.many from rfl, gmatch] at h
      rcases (starLoop_true_iff _ _).mp h with ⟨w, t, rfl, hw, hk⟩
      exact .star hw (ih t hk)
    · by_cases hq : c = '?'
      · subst hq
        rw [List.map_cons, show toItem '?' = GItem.one from rfl] at h
        cases s with
        | nil => simp [gmatch] at h
        | cons x xs =>
          rw [gmatch, Bool.and_eq_true, decide_eq_true_eq] at h
          exact .qmark h.1 (ih xs h.2)
      · rw [List.map_cons, show toItem c = GItem.lit c from by
            simp [toItem, hstar, hq]] at h
        cases s with
        | nil => simp [gmatch] at h
        | cons x xs =>
          rw [gmatch, Bool.and_eq_true] at h
          exact .lit hstar hq h.1 (ih xs h.2)

/-- Completeness half: every match in the sense of the specification is
accepted by the compiled matcher. -/
theorem gmatch_of_specGlobMatch :
    ∀ {p s : List Char}, SpecGlobMatch p s → gmatch (p.map toItem) s = true := by
  intro p s h
  induction h with
  | nil => rfl
  | lit hc1 hc2 heq hm ih =>
    rename_i c x p' s'
    rw [List.map_cons, show toItem c = GItem.lit c from by simp [toItem, hc1, hc2],
      gmatch, Bool.and_eq_true]
    exact ⟨heq, ih⟩
  | qmark hx hm ih =>
    rw [List.map_cons, show toItem '?' = GItem.one from rfl, gmatch,
      Bool.and_eq_true, decide_eq_true_eq]
    exact ⟨hx, ih⟩
  | star hw hm ih =>
    rw [List.map_cons, show toItem '*' = GItem.many from rfl, gmatch]
    exact (starLoop_true_iff _ _).mpr ⟨_, _, rfl, hw, ih⟩

/-- The compiled matcher decides the specification relation on plain
patterns. -/
theorem gmatch_toItem_iff (p s : List Char) :
    gmatch (p.map toItem) s = true ↔ SpecGlobMatch p s :=
  ⟨specGlobMatch_of_gmatch p s, fun h => gmatch_of_specGlobMatch h⟩

/-- On a pattern without unescaped metacharacters, `+` or backslash,
compilation succeeds and produces exactly one atom per character. -/
theorem compileGlob_plain :
    ∀ p : List Char, (∀ c ∈ p, metaChar c = false ∧ c ≠ '+') →
      compileGlob p = some (p.map toItem) := by
  intro p
  induction p with
  | nil => intro _; rfl
  | cons c rest ih =>
    intro h
    have hc := h c (List.mem_cons_self ..)
    have hmeta : ¬ (metaChar c = true) := by simp [hc.1]
    have hplus : ¬ (c = '+') := hc.2
    have hrest : ∀ x ∈ rest, metaChar x = false ∧ x ≠ '+' :=
      fun x hx => h x (List.mem_cons_of_mem _ hx)
    have hcompiled := ih hrest
    cases rest with
    | nil =>
      by_cases h1 : c = '*'
      · subst h1; decide
      · by_cases h2 : c = '?'
        · subst h2; decide
        · rw [compileGlob, if_neg hmeta, if_neg hplus, if_neg h1, if_neg h2]
          simp [toItem, h1, h2]
    | cons c2 rest2 =>
      have hc2 : ¬ (c2 = '+') := (hrest c2 (List.mem_cons_self ..)).2
      by_cases h1 : c = '*'
      · subst h1
        rw [compileGlob, if_neg (by decide), if_neg (by decide), if_neg hc2,
          if_pos rfl, hcompiled]
        rfl
      · by_cases h2 : c = '?'
        · subst h2
          rw [compileGlob, if_neg (by decide), if_neg (by decide), if_neg hc2,
            if_neg (by decide), if_pos rfl, hcompiled]
          rfl
        · rw [compileGlob, if_neg hmeta, if_neg hplus, if_neg hc2, if_neg h1,
            if_neg h2, hcompiled]
          simp [toItem, h1, h2]

/-- Normalization is the identity on backslash-free strings. -/
theorem normalizeSeps_eq_self :
    ∀ s : List Char, (∀ c ∈ s, c ≠ '\\') → normalizeSeps s = s := by
  intro s h
  induction s with
  | nil => rfl
  | cons c rest ih =>
    have hc := h c (List.mem_cons_self ..)
    simp only [normalizeSeps, List.map_cons, if_neg hc]
    have := ih (fun x hx => h x (List.mem_cons_of_mem _ hx))
    simpa [normalizeSeps] using this

/-- Unpacking of `plainGlob`. -/
theorem plainGlob_chars {p : String} (hp : plainGlob p = true) :
    ∀ c ∈ p.data, metaChar c = false ∧ c ≠ '+' ∧ c ≠ '\\' := by
  intro c hc
  have := List.all_eq_true.mp hp c hc
  simp only [Bool.and_eq_true, Bool.not_eq_true', decide_eq_true_eq] at this
  exact ⟨this.1.1, this.1.2, this.2⟩

/-- On a plain pattern, `matchOne` returns the boolean of the compiled
matcher. -/
theorem matchOne_plain (fn np : List Char) (p : String) (hp : plainGlob p = true) :
    matchOne fn np p =
      some (gmatch (p.data.map toItem)
        (if '/' ∈ p.data then np else fn)) := by
  have hchars := plainGlob_chars hp
  have hnorm : normalizeSeps p.data = p.data :=
    normalizeSeps_eq_self _ (fun c hc => (hchars c hc).2.2)
  rw [matchOne, hnorm,
    compileGlob_plain _ (fun c hc => ⟨(hchars c hc).1, (hchars c hc).2.1⟩)]

/-- `matchSome` on plain patterns: never throws, and returns `true` exactly
when some pattern matches in the sense of the specification. -/
theorem matchSome_plain_iff (fn np : List Char) :
    ∀ pats : List String, (∀ p ∈ pats, plainGlob p = true) →
      (matchSome fn np pats).isSome = true ∧
      ((matchSome fn np pats = some true) ↔
        ∃ p ∈ pats, SpecGlobMatch (normalizeSeps p.data)
          (if '/' ∈ normalizeSeps p.data then np else fn)) := by
  intro pats
  induction pats with
  | nil =>
    intro _
    refine ⟨rfl, ?_⟩
    simp [matchSome]
  | cons p ps ih =>
    intro h
    have hp := h p (List.mem_cons_self ..)
    have hps : ∀ q ∈ ps, plainGlob q = true :=
      fun q hq => h q (List.mem_cons_of_mem _ hq)
    have hnorm : normalizeSeps p.data = p.data :=
      normalizeSeps_eq_self _ (fun c hc => (plainGlob_chars hp c hc).2.2)
    rcases ih hps with ⟨ihSome, ihIff⟩
    have hmatch := matchOne_plain fn np p hp
    rw [matchSome, hmatch]
    cases hb : gmatch (p.data.map toItem) (if '/' ∈ p.data then np else fn) with
    | true =>
      refine ⟨rfl, ?_⟩
      constructor
      · intro _
        exact ⟨p, List.mem_cons_self .., by
          rw [hnorm]
          exact (gmatch_toItem_iff _ _).mp hb⟩
      · intro _; rfl
    | false =>
      refine ⟨ihSome, ?_⟩
      rw [ihIff]
      constructor
      · rintro ⟨q, hq, hmq⟩
        exact ⟨q, List.mem_cons_of_mem _ hq, hmq⟩
      · rintro ⟨q, hq, hmq⟩
        rcases List.mem_cons.mp hq with rfl | hq
        · exfalso
          rw [hnorm] at hmq
          have := (gmatch_toItem_iff _ _).mpr hmq
          rw [hb] at this
          cases this
        · exact ⟨q, hq, hmq⟩

/-! ## Lemmas about the filesystem model -/

theorem lookupFile_setFile (l : List (RPath × FsFile)) (p : RPath) (f : FsFile) :
    ∀ q, lookupFile (setFile l p f) q =
      if p = q then some f else lookupFile l q := by
  induction l with
  | nil =>
    intro q
    by_cases h : p = q <;> simp [setFile, lookupFile, h]
  | cons e rest ih =>
    intro q
    obtain ⟨r, g⟩ := e
    by_cases hr : r = p
    · subst hr
      by_cases hq : r = q
      · subst hq
        rw [setFile, if_pos rfl, lookupFile, if_pos rfl, if_pos rfl]
      · rw [setFile, if_pos rfl, lookupFile, if_neg hq, if_neg hq, lookupFile,
          if_neg hq]
    · by_cases hq : r = q
      · subst hq
        rw [setFile, if_neg hr, lookupFile, if_pos rfl,
          if_neg (fun h : p = r => hr h.symm), lookupFile, if_pos rfl]
      · rw [setFile, if_neg hr, lookupFile, if_neg hq, ih q]
        by_cases hpq : p = q
        · rw [if_pos hpq, if_pos hpq]
        · rw [if_neg hpq, if_neg hpq, lookupFile, if_neg hq]

theorem lookupFile_filter_ne (l : List (RPath × FsFile)) (p : RPath) :
    ∀ q, lookupFile (l.filter (fun e => decide (e.1 ≠ p))) q =
      if p = q then none else lookupFile l q := by
  induction l with
  | nil =>
    intro q
    by_cases h : p = q <;> simp [lookupFile, h]
  | cons e rest ih =>
    intro q
    obtain ⟨r, g⟩ := e
    rw [List.filter_cons]
    by_cases hr : r = p
    · have hcond : ¬ ((fun e : RPath × FsFile => decide (e.1 ≠ p)) (r, g) = true) := by
        simp [hr]
      rw [if_neg hcond, ih q]
      by_cases hpq : p = q
      · rw [if_pos hpq, if_pos hpq]
      · rw [if_neg hpq, if_neg hpq, lookupFile,
          if_neg (fun h : r = q => hpq (hr ▸ h))]
    · have hcond : ((fun e : RPath × FsFile => decide (e.1 ≠ p)) (r, g) = true) := by
        simp [hr]
      rw [if_pos hcond]
      by_cases hq : r = q
      · subst hq
        rw [lookupFile, if_pos rfl, if_neg (fun h : p = r => hr h.symm),
          lookupFile, if_pos rfl]
      · rw [lookupFile, if_neg hq, ih q]
        by_cases hpq : p = q
        · rw [if_pos hpq, if_pos hpq]
        · rw [if_neg hpq, if_neg hpq, lookupFile, if_neg hq]

theorem lookupFile_isSome_of_mem {l : List (RPath × FsFile)} {p : RPath}
    (h : p ∈ l.map Prod.fst) : (lookupFile l p).isSome = true := by
  induction l with
  | nil => cases h
  | cons e rest ih =>
    obtain ⟨r, g⟩ := e
    by_cases hr : r = p
    · simp [lookupFile, hr]
    · rcases List.mem_cons.mp h with h1 | h1
      · exact absurd h1.symm hr
      · simpa [lookupFile, hr] using ih h1

theorem lookupFile_copyFile (dst : Fs) (rel : RPath) (f : FsFile) :
    ∀ q, lookupFile (copyFile dst rel f).files q =
      if rel = q then some ⟨f.mtime, f.content⟩ else lookupFile dst.files q := by
  intro q
  simp [copyFile, lookupFile_setFile]

theorem lookupFile_removeFileAt (dst : Fs) (rel : RPath) :
    ∀ q, lookupFile (removeFileAt dst rel).files q =
      if rel = q then none else lookupFile dst.files q := by
  intro q
  exact lookupFile_filter_ne dst.files rel q

theorem removeFileAt_dirs (dst : Fs) (rel : RPath) :
    (removeFileAt dst rel).dirs = dst.dirs := rfl

/-- `matchesPattern` returns a boolean whenever every pattern in the list
compiles. -/
theorem matchesPattern_ne_none {pats : List String} (h : patternsOk pats = true)
    (fp : String) : matchesPattern fp pats ≠ none := by
  rw [matchesPattern]
  by_cases he : pats.isEmpty
  · simp [he]
  · rw [if_neg he]
    have hall : ∀ p ∈ pats, (compileGlob (normalizeSeps p.data)).isSome = true :=
      List.all_eq_true.mp h
    clear h he
    induction pats with
    | nil => simp [matchSome]
    | cons p ps ih =>
      have hp := hall p (List.mem_cons_self ..)
      rcases Option.isSome_iff_exists.mp hp with ⟨items, hit⟩
      rw [matchSome, matchOne, hit]
      cases hg : gmatch items (if '/' ∈ p.data
          then normalizeSeps fp.data else baseName fp.data) with
      | true => simp [hg]
      | false =>
        simp only [hg]
        simpa using ih (fun q hq => hall q (List.mem_cons_of_mem _ hq))

theorem option_bool_resolve {o : Option Bool} (h : o ≠ none)
    (h2 : ¬ o = some true) : o = some false := by
  cases o with
  | none => exact absurd rfl h
  | some b =>
    cases b with
    | true => exact absurd rfl h2
    | false => rfl

/-- Master lemma for the copy phase: with compilable exclusion patterns and
every processed path present in the source, the phase succeeds, the copied
and skipped counters are determined by the processed list, and the
destination is the input destination overwritten exactly at the copied
paths (with the source bytes and timestamp). -/
theorem copyPhase_master (cfg : SyncConfig) (src dst0 : Fs) :
    ∀ (rels : List RPath) (dst : Fs) (c k : Nat),
      rels.Nodup →
      (∀ rel ∈ rels, matchesPattern (joinPath rel) cfg.copyExclusions ≠ none) →
      (∀ rel ∈ rels, (lookupFile src.files rel).isSome = true) →
      (∀ rel ∈ rels, lookupFile dst.files rel = lookupFile dst0.files rel) →
      ∃ dstF cc kk,
        copyPhase cfg src rels dst c k = (Except.ok (cc, kk), dstF) ∧
        cc = c + rels.countP (fun rel =>
          decide (matchesPattern (joinPath rel) cfg.copyExclusions = some false) &&
          filesAreDifferent (lookupFile src.files rel) (lookupFile dst0.files rel)) ∧
        kk = k + rels.countP (fun rel =>
          decide (matchesPattern (joinPath rel) cfg.copyExclusions = some true)) ∧
        (∀ q : RPath,
          lookupFile dstF.files q =
            if q ∈ rels ∧
               (decide (matchesPattern (joinPath q) cfg.copyExclusions = some false) &&
                filesAreDifferent (lookupFile src.files q)
                  (lookupFile dst0.files q)) = true
            then (lookupFile src.files q).map (fun f => ⟨f.mtime, f.content⟩)
            else lookupFile dst.files q) := by
  intro rels
  induction rels with
  | nil =>
    intro dst c k _ _ _ _
    refine ⟨dst, c, k, rfl, by simp, by simp, ?_⟩
    intro q
    rw [if_neg]
    rintro ⟨h, -⟩
    cases h
  | cons rel rest ih =>
    intro dst c k hnd hne hsome hagree
    obtain ⟨hrel, hndr⟩ := List.nodup_cons.mp hnd
    have hner : ∀ r ∈ rest, matchesPattern (joinPath r) cfg.copyExclusions ≠ none :=
      fun r hr => hne r (List.mem_cons_of_mem _ hr)
    have hsomer : ∀ r ∈ rest, (lookupFile src.files r).isSome = true :=
      fun r hr => hsome r (List.mem_cons_of_mem _ hr)
    cases hmb : matchesPattern (joinPath rel) cfg.copyExclusions with
    | none => exact absurd hmb (hne rel (List.mem_cons_self ..))
    | some b =>
      cases b with
      | true =>
        have hstep : copyPhase cfg src (rel :: rest) dst c k =
            copyPhase cfg src rest dst c (k + 1) := by
          rw [copyPhase, hmb]
        obtain ⟨dstF, cc, kk, heq, hcc, hkk, hchar⟩ :=
          ih dst c (k + 1) hndr hner hsomer
            (fun r hr => hagree r (List.mem_cons_of_mem _ hr))
        refine ⟨dstF, cc, kk, hstep ▸ heq, ?_, ?_, ?_⟩
        · rw [hcc, List.countP_cons]
          simp [hmb]
        · rw [hkk, List.countP_cons]
          simp [hmb]
          omega
        · intro q
          rw [hchar q]
          by_cases hq : q = rel
          · subst hq
            rw [if_neg (fun hh => hrel hh.1), if_neg]
            rintro ⟨-, hh⟩
            simp [hmb] at hh
          · by_cases hcond : q ∈ rest ∧
                (decide (matchesPattern (joinPath q) cfg.copyExclusions = some false) &&
                 filesAreDifferent (lookupFile src.files q)
                   (lookupFile dst0.files q)) = true
            · rw [if_pos hcond, if_pos ⟨List.mem_cons_of_mem _ hcond.1, hcond.2⟩]
            · rw [if_neg hcond, if_neg
                (fun hh => hcond ⟨(List.mem_cons.mp hh.1).resolve_left hq, hh.2⟩)]
      | false =>
        have hd0 : lookupFile dst.files rel = lookupFile dst0.files rel :=
          hagree rel (List.mem_cons_self ..)
        cases hdiff : filesAreDifferent (lookupFile src.files rel)
            (lookupFile dst.files rel) with
        | true =>
          rcases Option.isSome_iff_exists.mp (hsome rel (List.mem_cons_self ..))
            with ⟨f, hf⟩
          have hstep : copyPhase cfg src (rel :: rest) dst c k =
              copyPhase cfg src rest (copyFile dst rel f) (c + 1) k := by
            rw [copyPhase, hmb, if_pos hdiff, hf]
          have hagree2 : ∀ r ∈ rest,
              lookupFile (copyFile dst rel f).files r = lookupFile dst0.files r := by
            intro r hr
            rw [lookupFile_copyFile, if_neg (fun hh => hrel (by rw [hh]; exact hr)),
              hagree r (List.mem_cons_of_mem _ hr)]
          obtain ⟨dstF, cc, kk, heq, hcc, hkk, hchar⟩ :=
            ih (copyFile dst rel f) (c + 1) k hndr hner hsomer hagree2
          have hdiff0 : filesAreDifferent (lookupFile src.files rel)
              (lookupFile dst0.files rel) = true := by
            rw [← hd0]; exact hdiff
          refine ⟨dstF, cc, kk, hstep ▸ heq, ?_, ?_, ?_⟩
          · rw [hcc, List.countP_cons]
            simp [hmb, hdiff0]
            omega
          · rw [hkk, List.countP_cons]
            simp [hmb]
          · intro q
            rw [hchar q]
            by_cases hq : q = rel
            · subst hq
              rw [if_neg (fun hh => hrel hh.1),
                lookupFile_copyFile, if_pos rfl, if_pos ⟨List.mem_cons_self .., by
                  simp [hmb, hdiff0]⟩, hf]
              rfl
            · by_cases hcond : q ∈ rest ∧
                  (decide (matchesPattern (joinPath q) cfg.copyExclusions = some false) &&
                   filesAreDifferent (lookupFile src.files q)
                     (lookupFile dst0.files q)) = true
              · rw [if_pos hcond, if_pos ⟨List.mem_cons_of_mem _ hcond.1, hcond.2⟩]
              · rw [if_neg hcond, if_neg
                  (fun hh => hcond ⟨(List.mem_cons.mp hh.1).resolve_left hq, hh.2⟩),
                  lookupFile_copyFile, if_neg (fun hh => hq hh.symm)]
        | false =>
          have hstep : copyPhase cfg src (rel :: rest) dst c k =
              copyPhase cfg src rest dst c k := by
            rw [copyPhase, hmb, if_neg (by rw [hdiff]; simp)]
          obtain ⟨dstF, cc, kk, heq, hcc, hkk, hchar⟩ :=
            ih dst c k hndr hner hsomer
              (fun r hr => hagree r (List.mem_cons_of_mem _ hr))
          have hdiff0 : filesAreDifferent (lookupFile src.files rel)
              (lookupFile dst0.files rel) = false := by
            rw [← hd0]; exact hdiff
          refine ⟨dstF, cc, kk, hstep ▸ heq, ?_, ?_, ?_⟩
          · rw [hcc, List.countP_cons]
            simp [hmb, hdiff0]
          · rw [hkk, List.countP_cons]
            simp [hmb]
          · intro q
            rw [hchar q]
            by_cases hq : q = rel
            · subst hq
              rw [if_neg (fun hh => hrel hh.1), if_neg]
              rintro ⟨-, hh⟩
              simp [hmb, hdiff0] at hh
            · by_cases hcond : q ∈ rest ∧
                  (decide (matchesPattern (joinPath q) cfg.copyExclusions = some false) &&
                   filesAreDifferent (lookupFile src.files q)
                     (lookupFile dst0.files q)) = true
              · rw [if_pos hcond, if_pos ⟨List.mem_cons_of_mem _ hcond.1, hcond.2⟩]
              · rw [if_neg hcond, if_neg
                  (fun hh => hcond ⟨(List.mem_cons.mp hh.1).resolve_left hq, hh.2⟩)]

/-- Master lemma for the delete phase: with compilable delete-exclusion
patterns, the phase succeeds, the deleted counter counts exactly the
processed paths that are absent from the source and not delete-excluded,
precisely those paths are removed from the destination, and the directory
list is untouched. -/
theorem deletePhase_master (cfg : SyncConfig) (srcKeys : List RPath) :
    ∀ (rels : List RPath) (dst : Fs) (d : Nat),
      (∀ rel ∈ rels, rel ∉ srcKeys →
        matchesPattern (joinPath rel) cfg.deleteExclusions ≠ none) →
      ∃ dstF dd,
        deletePhase cfg srcKeys rels dst d = (Except.ok dd, dstF) ∧
        dd = d + rels.countP (fun rel =>
          decide (rel ∉ srcKeys) &&
          decide (matchesPattern (joinPath rel) cfg.deleteExclusions = some false)) ∧
        (∀ q, lookupFile dstF.files q =
          if q ∈ rels ∧ q ∉ srcKeys ∧
             matchesPattern (joinPath q) cfg.deleteExclusions = some false
          then none else lookupFile dst.files q) ∧
        dstF.dirs = dst.dirs := by
  intro rels
  induction rels with
  | nil =>
    intro dst d _
    refine ⟨dst, d, rfl, by simp, ?_, rfl⟩
    intro q
    rw [if_neg]
    rintro ⟨h, -⟩
    cases h
  | cons rel rest ih =>
    intro dst d hne
    have hner : ∀ r ∈ rest, r ∉ srcKeys →
        matchesPattern (joinPath r) cfg.deleteExclusions ≠ none :=
      fun r hr => hne r (List.mem_cons_of_mem _ hr)
    by_cases hin : rel ∈ srcKeys
    · have hstep : deletePhase cfg srcKeys (rel :: rest) dst d =
          deletePhase cfg srcKeys rest dst d := by
        rw [deletePhase, if_pos hin]
      obtain ⟨dstF, dd, heq, hdd, hchar, hdirs⟩ := ih dst d hner
      refine ⟨dstF, dd, hstep ▸ heq, ?_, ?_, hdirs⟩
      · rw [hdd, List.countP_cons]
        simp [hin]
      · intro q
        rw [hchar q]
        by_cases hcond : q ∈ rest ∧ q ∉ srcKeys ∧
            matchesPattern (joinPath q) cfg.deleteExclusions = some false
        · rw [if_pos hcond,
            if_pos ⟨List.mem_cons_of_mem _ hcond.1, hcond.2.1, hcond.2.2⟩]
        · rw [if_neg hcond, if_neg]
          rintro ⟨hq1, hq2, hq3⟩
          rcases List.mem_cons.mp hq1 with rfl | hq1
          · exact hq2 hin
          · exact hcond ⟨hq1, hq2, hq3⟩
    · cases hmb : matchesPattern (joinPath rel) cfg.deleteExclusions with
      | none => exact absurd hmb (hne rel (List.mem_cons_self ..) hin)
      | some b =>
        cases b with
        | true =>
          have hstep : deletePhase cfg srcKeys (rel :: rest) dst d =
              deletePhase cfg srcKeys rest dst d := by
            rw [deletePhase, if_neg hin, hmb]
          obtain ⟨dstF, dd, heq, hdd, hchar, hdirs⟩ := ih dst d hner
          refine ⟨dstF, dd, hstep ▸ heq, ?_, ?_, hdirs⟩
          · rw [hdd, List.countP_cons]
            simp [hmb]
          · intro q
            rw [hchar q]
            by_cases hcond : q ∈ rest ∧ q ∉ srcKeys ∧
                matchesPattern (joinPath q) cfg.deleteExclusions = some false
            · rw [if_pos hcond,
                if_pos ⟨List.mem_cons_of_mem _ hcond.1, hcond.2.1, hcond.2.2⟩]
            · rw [if_neg hcond, if_neg]
              rintro ⟨hq1, hq2, hq3⟩
              rcases List.mem_cons.mp hq1 with rfl | hq1
              · rw [hmb] at hq3
                cases hq3
              · exact hcond ⟨hq1, hq2, hq3⟩
        | false =>
          have hstep : deletePhase cfg srcKeys (rel :: rest) dst d =
              deletePhase cfg srcKeys rest (removeFileAt dst rel) (d + 1) := by
            rw [deletePhase, if_neg hin, hmb]
          obtain ⟨dstF, dd, heq, hdd, hchar, hdirs⟩ :=
            ih (removeFileAt dst rel) (d + 1) hner
          refine ⟨dstF, dd, hstep ▸ heq, ?_, ?_,
            by rw [hdirs, removeFileAt_dirs]⟩
          · rw [hdd, List.countP_cons]
            simp [hmb, hin]
            omega
          · intro q
            rw [hchar q]
            by_cases hq : q = rel
            · subst hq
              by_cases hcond : q ∈ rest ∧ q ∉ srcKeys ∧
                  matchesPattern (joinPath q) cfg.deleteExclusions = some false
              · rw [if_pos hcond, if_pos ⟨List.mem_cons_self .., hin, hmb⟩]
              · rw [if_neg hcond, lookupFile_removeFileAt, if_pos rfl,
                  if_pos ⟨List.mem_cons_self .., hin, hmb⟩]
            · by_cases hcond : q ∈ rest ∧ q ∉ srcKeys ∧
                  matchesPattern (joinPath q) cfg.deleteExclusions = some false
              · rw [if_pos hcond,
                  if_pos ⟨List.mem_cons_of_mem _ hcond.1, hcond.2.1, hcond.2.2⟩]
              · rw [if_neg hcond, lookupFile_removeFileAt,
                  if_neg (fun hh => hq hh.symm), if_neg]
                rintro ⟨hq1, hq2, hq3⟩
                rcases List.mem_cons.mp hq1 with rfl | hq1
                · exact hq rfl
                · exact hcond ⟨hq1, hq2, hq3⟩

/-! ## Lemmas about empty-directory cleanup -/

theorem mem_keys_of_lookup {l : List (RPath × FsFile)} {p : RPath} {f : FsFile}
    (h : lookupFile l p = some f) : p ∈ l.map Prod.fst := by
  induction l with
  | nil => cases h
  | cons e rest ih =>
    obtain ⟨r, g⟩ := e
    by_cases hr : r = p
    · subst hr
      exact List.mem_cons_self ..
    · rw [lookupFile, if_neg hr] at h
      exact List.mem_cons_of_mem _ (ih h)

theorem immediateChild_append (d : RPath) (n : String) :
    immediateChild d (d ++ [n]) = true := by
  rw [immediateChild]
  simp [List.take_left]

theorem cleanupStep_files (src dst : Fs) (e : RPath) :
    (cleanupStep src dst e).files = dst.files := by
  unfold cleanupStep
  split_ifs <;> rfl

theorem cleanupStep_dirs_subset (src dst : Fs) (e q : RPath)
    (h : q ∈ (cleanupStep src dst e).dirs) : q ∈ dst.dirs := by
  unfold cleanupStep at h
  split_ifs at h
  · exact h
  · exact (List.mem_filter.mp h).1
  · exact h
  · exact h

/-- A directory that is removed by one cleanup step must be the processed
one, must be absent from the source, and must have been empty. -/
theorem cleanupStep_removed (src dst : Fs) (e q : RPath)
    (hq : q ∈ dst.dirs) (h : q ∉ (cleanupStep src dst e).dirs) :
    q = e ∧ pathAccessible src q = false ∧ dirIsEmpty dst q = true := by
  unfold cleanupStep at h
  split_ifs at h with h1 h2 h3
  · exact absurd hq h
  · by_cases hqe : q = e
    · subst hqe
      exact ⟨rfl, by simpa using h1, h3⟩
    · exfalso
      exact h (List.mem_filter.mpr ⟨hq, by simpa using hqe⟩)
  · exact absurd hq h
  · exact absurd hq h

theorem cleanup_foldl_files (src : Fs) :
    ∀ (l : List RPath) (dst : Fs),
      (l.foldl (cleanupStep src) dst).files = dst.files := by
  intro l
  induction l with
  | nil => intro dst; rfl
  | cons e l ih =>
    intro dst
    rw [List.foldl_cons, ih, cleanupStep_files]

theorem cleanup_foldl_dirs_subset (src : Fs) :
    ∀ (l : List RPath) (dst : Fs) (q : RPath),
      q ∈ (l.foldl (cleanupStep src) dst).dirs → q ∈ dst.dirs := by
  intro l
  induction l with
  | nil => intro dst q h; exact h
  | cons e l ih =>
    intro dst q h
    rw [List.foldl_cons] at h
    exact cleanupStep_dirs_subset src dst e q (ih _ q h)

theorem cleanup_foldl_keeps_accessible (src : Fs) :
    ∀ (l : List RPath) (dst : Fs) (q : RPath),
      pathAccessible src q = true → q ∈ dst.dirs →
      q ∈ (l.foldl (cleanupStep src) dst).dirs := by
  intro l
  induction l with
  | nil => intro dst q _ hq; exact hq
  | cons e l ih =>
    intro dst q hacc hq
    rw [List.foldl_cons]
    refine ih _ q hacc ?_
    by_cases hmem : q ∈ (cleanupStep src dst e).dirs
    · exact hmem
    · obtain ⟨-, hnacc, -⟩ := cleanupStep_removed src dst e q hq hmem
      rw [hacc] at hnacc
      cases hnacc

theorem cleanup_foldl_keeps_nonempty (src : Fs) :
    ∀ (l : List RPath) (dst : Fs) (q : RPath) (n : String) (f : FsFile),
      lookupFile dst.files (q ++ [n]) = some f → q ∈ dst.dirs →
      q ∈ (l.foldl (cleanupStep src) dst).dirs := by
  intro l
  induction l with
  | nil => intro dst q n f _ hq; exact hq
  | cons e l ih =>
    intro dst q n f hf hq
    rw [List.foldl_cons]
    have hfiles : (cleanupStep src dst e).files = dst.files := cleanupStep_files ..
    refine ih _ q n f (by rw [hfiles]; exact hf) ?_
    by_cases hmem : q ∈ (cleanupStep src dst e).dirs
    · exact hmem
    · obtain ⟨-, -, hempty⟩ := cleanupStep_removed src dst e q hq hmem
      exfalso
      have hkey : (q ++ [n]) ∈ dst.files.map Prod.fst := mem_keys_of_lookup hf
      rcases List.mem_map.mp hkey with ⟨entry, hentry, hkeyeq⟩
      have := (List.all_eq_true.mp (Bool.and_eq_true .. ▸ hempty :
        dst.files.all (fun e2 => !immediateChild q e2.1) = true ∧ _).1) entry hentry
      rw [hkeyeq, immediateChild_append] at this
      cases this

theorem cleanup_foldl_keeps_parent (src : Fs) :
    ∀ (l : List RPath) (dst : Fs) (d : RPath) (n : String),
      d ∈ dst.dirs → (d ++ [n]) ∈ (l.foldl (cleanupStep src) dst).dirs →
      d ∈ (l.foldl (cleanupStep src) dst).dirs := by
  intro l
  induction l with
  | nil => intro dst d n hd _; exact hd
  | cons e l ih =>
    intro dst d n hd hchild
    rw [List.foldl_cons] at hchild ⊢
    by_cases hmem : d ∈ (cleanupStep src dst e).dirs
    · exact ih _ d n hmem hchild
    · exfalso
      obtain ⟨-, -, hempty⟩ := cleanupStep_removed src dst e d hd hmem
      have hchild2 : (d ++ [n]) ∈ (cleanupStep src dst e).dirs :=
        cleanup_foldl_dirs_subset src l _ _ hchild
      have hchild3 : (d ++ [n]) ∈ dst.dirs :=
        cleanupStep_dirs_subset src dst e _ hchild2
      have := (List.all_eq_true.mp (Bool.and_eq_true .. ▸ hempty :
        _ ∧ dst.dirs.all (fun q => !immediateChild d q) = true).2) _ hchild3
      rw [immediateChild_append] at this
      cases this

/-! ## Lemmas about the deepest-first sort -/

theorem insertByDepth_perm (d : RPath) :
    ∀ l : List RPath, List.Perm (insertByDepth d l) (d :: l) := by
  intro l
  induction l with
  | nil => rfl
  | cons e es ih =>
    rw [insertByDepth]
    by_cases h : e.length < d.length
    · rw [if_pos h]
    · rw [if_neg h]
      exact (ih.cons e).trans (List.Perm.swap d e es)

theorem sortByDepthDesc_perm (l : List RPath) :
    List.Perm (sortByDepthDesc l) l := by
  induction l with
  | nil => rfl
  | cons e es ih =>
    exact (insertByDepth_perm e _).trans (ih.cons e)

theorem insertByDepth_sorted (d : RPath) :
    ∀ l : List RPath, List.Sorted (fun a b : RPath => b.length ≤ a.length) l →
      List.Sorted (fun a b : RPath => b.length ≤ a.length) (insertByDepth d l) := by
  intro l
  induction l with
  | nil => intro _; simp [insertByDepth]
  | cons e es ih =>
    intro hs
    rw [List.sorted_cons] at hs
    obtain ⟨he, hes⟩ := hs
    rw [insertByDepth]
    by_cases h : e.length < d.length
    · rw [if_pos h, List.sorted_cons]
      refine ⟨?_, List.sorted_cons.mpr ⟨he, hes⟩⟩
      intro x hx
      rcases List.mem_cons.mp hx with rfl | hx
      · omega
      · have := he x hx
        omega
    · rw [if_neg h, List.sorted_cons]
      refine ⟨?_, ih hes⟩
      intro x hx
      rcases List.mem_cons.mp ((insertByDepth_perm d es).mem_iff.mp hx)
        with rfl | h1
      · omega
      · exact he x h1

theorem sortByDepthDesc_sorted (l : List RPath) :
    List.Sorted (fun a b : RPath => b.length ≤ a.length) (sortByDepthDesc l) := by
  induction l with
  | nil => simp [sortByDepthDesc]
  | cons e es ih =>
    exact insertByDepth_sorted e _ ih

/-! ## Master lemma for a whole successful sync -/

/-- A full run of `sync` on existing roots, with compilable patterns and a
duplicate-free source file list: the call succeeds, the three counters are
determined by the initial trees, and the final destination files are the
initial ones minus the deleted paths plus the copied ones. -/
theorem sync_master (cfg : SyncConfig) (src dst : Fs)
    (hco : patternsOk cfg.copyExclusions = true)
    (hde : patternsOk cfg.deleteExclusions = true)
    (hnd : (src.files.map Prod.fst).Nodup) :
    ∃ fin,
      sync cfg (some src) (some dst) =
        (Except.ok
          { copied := (src.files.map Prod.fst).countP (fun rel =>
              decide (matchesPattern (joinPath rel) cfg.copyExclusions = some false) &&
              filesAreDifferent (lookupFile src.files rel) (lookupFile dst.files rel)),
            deleted := (dst.files.map Prod.fst).countP (fun rel =>
              decide (rel ∉ src.files.map Prod.fst) &&
              decide (matchesPattern (joinPath rel) cfg.deleteExclusions = some false)),
            skipped := (src.files.map Prod.fst).countP (fun rel =>
              decide (matchesPattern (joinPath rel) cfg.copyExclusions = some true)) },
         some fin) ∧
      (∀ q, lookupFile fin.files q =
        if q ∈ dst.files.map Prod.fst ∧ q ∉ src.files.map Prod.fst ∧
           matchesPattern (joinPath q) cfg.deleteExclusions = some false
        then none
        else if q ∈ src.files.map Prod.fst ∧
            (decide (matchesPattern (joinPath q) cfg.copyExclusions = some false) &&
             filesAreDifferent (lookupFile src.files q)
               (lookupFile dst.files q)) = true
        then (lookupFile src.files q).map (fun f => ⟨f.mtime, f.content⟩)
        else lookupFile dst.files q) := by
  obtain ⟨dst1, cc, kk, heqC, hcc, hkk, hcharC⟩ :=
    copyPhase_master cfg src dst (src.files.map Prod.fst) dst 0 0 hnd
      (fun rel _ => matchesPattern_ne_none hco (joinPath rel))
      (fun rel hrel => lookupFile_isSome_of_mem hrel)
      (fun _ _ => rfl)
  obtain ⟨dst2, dd, heqD, hdd, hcharD, hdirsD⟩ :=
    deletePhase_master cfg (src.files.map Prod.fst) (dst.files.map Prod.fst)
      dst1 0 (fun rel _ _ => matchesPattern_ne_none hde (joinPath rel))
  refine ⟨cleanupEmptyDirectories src dst2, ?_, ?_⟩
  · show sync cfg (some src) (some dst) = _
    rw [sync]
    simp only [Option.getD]
    rw [heqC]
    dsimp only
    rw [heqD]
    dsimp only
    rw [hcc, hkk, hdd]
    simp only [Nat.zero_add]
  · intro q
    rw [cleanupEmptyDirectories, cleanup_foldl_files, hcharD q]
    by_cases hdel : q ∈ dst.files.map Prod.fst ∧ q ∉ src.files.map Prod.fst ∧
        matchesPattern (joinPath q) cfg.deleteExclusions = some false
    · rw [if_pos hdel, if_pos hdel]
    · rw [if_neg hdel, if_neg hdel, hcharC q]

/-! ## Lemmas about the Tree Walker error behaviour -/

mutual

/-- File walker: a hard (non-ENOENT) failure somewhere in the tree makes the
walk abort with a non-ENOENT error; a tree without hard failures yields a
file list. -/
theorem walkFilesNode_spec : ∀ (n : WalkNode) (pre : RPath),
    (nodeHasHardFailure n = true →
      ∃ c, c ≠ "ENOENT" ∧ getFilesRecursively n pre = Except.error c) ∧
    (nodeHasHardFailure n = false →
      ∃ l, getFilesRecursively n pre = Except.ok l)
  | .failing code, pre => by
    constructor
    · intro h
      rw [nodeHasHardFailure] at h
      have hne : code ≠ "ENOENT" := of_decide_eq_true h
      exact ⟨code, hne, by rw [getFilesRecursively, if_neg hne]⟩
    · intro h
      rw [nodeHasHardFailure] at h
      have heq : code = "ENOENT" := of_not_not (of_decide_eq_false h)
      exact ⟨[], by rw [getFilesRecursively, if_pos heq]⟩
  | .ready es, pre => by
    have hspec := walkFilesEntries_spec es pre
    constructor
    · intro h
      rw [nodeHasHardFailure] at h
      obtain ⟨c, hc, herr⟩ := hspec.1 h
      exact ⟨c, hc, by rw [getFilesRecursively, herr]⟩
    · intro h
      rw [nodeHasHardFailure] at h
      obtain ⟨l, hok⟩ := hspec.2 h
      exact ⟨l, by rw [getFilesRecursively, hok]⟩

/-- Entry-list version of `walkFilesNode_spec`. -/
theorem walkFilesEntries_spec : ∀ (es : WalkEntries) (pre : RPath),
    (entriesHaveHardFailure es = true →
      ∃ c, c ≠ "ENOENT" ∧ walkFilesEntries es pre = Except.error c) ∧
    (entriesHaveHardFailure es = false →
      ∃ l, walkFilesEntries es pre = Except.ok l)
  | .nil, pre => by
    constructor
    · intro h
      rw [entriesHaveHardFailure] at h
      cases h
    · intro _
      exact ⟨[], rfl⟩
  | .consFile n rest, pre => by
    have hspec := walkFilesEntries_spec rest pre
    constructor
    · intro h
      rw [entriesHaveHardFailure] at h
      obtain ⟨c, hc, herr⟩ := hspec.1 h
      exact ⟨c, hc, by rw [walkFilesEntries, herr]; rfl⟩
    · intro h
      rw [entriesHaveHardFailure] at h
      obtain ⟨l, hok⟩ := hspec.2 h
      exact ⟨(pre ++ [n]) :: l, by rw [walkFilesEntries, hok]; rfl⟩
  | .consDir n node rest, pre => by
    have hnode := walkFilesNode_spec node (pre ++ [n])
    have hrest := walkFilesEntries_spec rest pre
    constructor
    · intro h
      rw [entriesHaveHardFailure, Bool.or_eq_true] at h
      by_cases hn : nodeHasHardFailure node = true
      · obtain ⟨c, hc, herr⟩ := hnode.1 hn
        exact ⟨c, hc, by rw [walkFilesEntries, herr]⟩
      · obtain ⟨sub, hsub⟩ := hnode.2 (Bool.not_eq_true _ ▸ hn)
        have hr : entriesHaveHardFailure rest = true := h.resolve_left hn
        obtain ⟨c, hc, herr⟩ := hrest.1 hr
        exact ⟨c, hc, by rw [walkFilesEntries, hsub, herr]; rfl⟩
    · intro h
      rw [entriesHaveHardFailure, Bool.or_eq_false_iff] at h
      obtain ⟨sub, hsub⟩ := hnode.2 h.1
      obtain ⟨tail, htail⟩ := hrest.2 h.2
      exact ⟨sub ++ tail, by rw [walkFilesEntries, hsub, htail]; rfl⟩

end

mutual

/-- Directory walker analogue of `walkFilesNode_spec`. -/
theorem walkDirsNode_spec : ∀ (n : WalkNode) (pre : RPath),
    (nodeHasHardFailure n = true →
      ∃ c, c ≠ "ENOENT" ∧ getDirectoriesRecursively n pre = Except.error c) ∧
    (nodeHasHardFailure n = false →
      ∃ l, getDirectoriesRecursively n pre = Except.ok l)
  | .failing code, pre => by
    constructor
    · intro h
      rw [nodeHasHardFailure] at h
      have hne : code ≠ "ENOENT" := of_decide_eq_true h
      exact ⟨code, hne, by rw [getDirectoriesRecursively, if_neg hne]⟩
    · intro h
      rw [nodeHasHardFailure] at h
      have heq : code = "ENOENT" := of_not_not (of_decide_eq_false h)
      exact ⟨[], by rw [getDirectoriesRecursively, if_pos heq]⟩
  | .ready es, pre => by
    have hspec := walkDirsEntries_spec es pre
    constructor
    · intro h
      rw [nodeHasHardFailure] at h
      obtain ⟨c, hc, herr⟩ := hspec.1 h
      exact ⟨c, hc, by rw [getDirectoriesRecursively, herr]⟩
    · intro h
      rw [nodeHasHardFailure] at h
      obtain ⟨l, hok⟩ := hspec.2 h
      exact ⟨l, by rw [getDirectoriesRecursively, hok]⟩

/-- Entry-list version of `walkDirsNode_spec`. -/
theorem walkDirsEntries_spec : ∀ (es : WalkEntries) (pre : RPath),
    (entriesHaveHardFailure es = true →
      ∃ c, c ≠ "ENOENT" ∧ walkDirsEntries es pre = Except.error c) ∧
    (entriesHaveHardFailure es = false →
      ∃ l, walkDirsEntries es pre = Except.ok l)
  | .nil, pre => by
    constructor
    · intro h
      rw [entriesHaveHardFailure] at h
      cases h
    · intro _
      exact ⟨[], rfl⟩
  | .consFile n rest, pre => by
    have hspec := walkDirsEntries_spec rest pre
    constructor
    · intro h
      rw [entriesHaveHardFailure] at h
      obtain ⟨c, hc, herr⟩ := hspec.1 h
      exact ⟨c, hc, by rw [walkDirsEntries, herr]⟩
    · intro h
      rw [entriesHaveHardFailure] at h
      obtain ⟨l, hok⟩ := hspec.2 h
      exact ⟨l, by rw [walkDirsEntries, hok]⟩
  | .consDir n node rest, pre => by
    have hnode := walkDirsNode_spec node (pre ++ [n])
    have hrest := walkDirsEntries_spec rest pre
    constructor
    · intro h
      rw [entriesHaveHardFailure, Bool.or_eq_true] at h
      by_cases hn : nodeHasHardFailure node = true
      · obtain ⟨c, hc, herr⟩ := hnode.1 hn
        exact ⟨c, hc, by rw [walkDirsEntries, herr]⟩
      · obtain ⟨sub, hsub⟩ := hnode.2 (Bool.not_eq_true _ ▸ hn)
        have hr : entriesHaveHardFailure rest = true := h.resolve_left hn
        obtain ⟨c, hc, herr⟩ := hrest.1 hr
        exact ⟨c, hc, by rw [walkDirsEntries, hsub, herr]; rfl⟩
    · intro h
      rw [entriesHaveHardFailure, Bool.or_eq_false_iff] at h
      obtain ⟨sub, hsub⟩ := hnode.2 h.1
      obtain ⟨tail, htail⟩ := hrest.2 h.2
      exact ⟨((pre ++ [n]) :: sub) ++ tail, by rw [walkDirsEntries, hsub, htail]; rfl⟩

end

/-- Helper for concrete spec-side matching facts: on a one-pattern list the
specification relation is decided by the compiled matcher (which agrees with
it on every pattern). -/
theorem specMatchesPattern_singleton (fp q : String) :
    SpecMatchesPattern fp [q] ↔
      gmatch ((normalizeSeps q.data).map toItem)
        (if '/' ∈ normalizeSeps q.data then normalizeSeps fp.data
         else baseName (normalizeSeps fp.data)) = true := by
  constructor
  · rintro ⟨p, hp, hm⟩
    rcases List.mem_singleton.mp hp with rfl
    exact (gmatch_toItem_iff _ _).mpr hm
  · intro h
    exact ⟨q, List.mem_singleton.mpr rfl, (gmatch_toItem_iff _ _).mp h⟩

/-! ## Claim theorems -/

/-- C1: the Change Detector (`filesAreDifferent`) returns true exactly when
the destination stat is unavailable (missing or unstatable destination), or
the modification times differ under exact equality, or the byte sizes
differ; and it never consults the content bytes — two files with equal
mtime and size compare equal even with different bytes. -/
theorem change_detector_spec :
    (∀ (s : FsFile) (dst : Option FsFile),
      filesAreDifferent (some s) dst = true ↔
        dst = none ∨ ∃ d, dst = some d ∧ (s.mtime ≠ d.mtime ∨ s.size ≠ d.size)) ∧
    (∀ f g : FsFile, f.mtime = g.mtime → f.size = g.size →
      filesAreDifferent (some f) (some g) = false) ∧
    (∃ f g : FsFile, f.content ≠ g.content ∧
      filesAreDifferent (some f) (some g) = false) := by
  refine ⟨?_, ?_, ?_⟩
  · intro s dst
    cases dst with
    | none => simp [filesAreDifferent]
    | some d =>
      simp [filesAreDifferent]
  · intro f g h1 h2
    simp [filesAreDifferent, h1, h2]
  · exact ⟨⟨0, [0]⟩, ⟨0, [1]⟩, by decide, by decide⟩

/-- Witness for C1 at a concrete input: same mtime and size, different
bytes, detector says "no copy needed". -/
theorem change_detector_spec_witness :
    filesAreDifferent (some ⟨5, [0]⟩) (some ⟨5, [1]⟩) = false :=
  change_detector_spec.2.1 ⟨5, [0]⟩ ⟨5, [1]⟩ rfl rfl

/-- C2: when the source root does not exist, `sync` fails with the
source-missing error before doing anything else, and the destination —
whatever its state, including not yet existing — is returned unchanged. -/
theorem sync_source_missing :
    ∀ (cfg : SyncConfig) (destination : Option Fs),
      sync cfg none destination =
        (Except.error SyncError.sourceMissing, destination) := by
  intro cfg destination
  rfl

/-- C3 (code bug): with a nonexistent source and a destination holding a
pre-existing file, `sync` throws the source-missing error — it does not
return the all-zero result that the repository's own test
("should handle non-existent source directory") and the specification
expect — while the destination is indeed left untouched. -/
theorem sync_missing_source_throws :
    sync {} none (some { files := [(["existing.txt"], ⟨1, [7]⟩)], dirs := [] }) =
      (Except.error SyncError.sourceMissing,
       some { files := [(["existing.txt"], ⟨1, [7]⟩)], dirs := [] }) := rfl

/-- Counterexample for C4 as stated over all patterns and paths: a raw `+`
is a regex operator rather than a literal (`a+` matches `aa` though the
spec rule says every character other than `*` and `?` matches itself), and
backslash handling diverges from the spec rule (the code takes the base
name of the raw path and checks the raw pattern for `/`, the rule
normalizes first). -/
theorem pattern_rule_counterexample :
    (matchesPattern "aa" ["a+"] = some true ∧ ¬ SpecMatchesPattern "aa" ["a+"]) ∧
    (matchesPattern "x\\abc" ["a?c"] = some false ∧
      SpecMatchesPattern "x\\abc" ["a?c"]) ∧
    (matchesPattern "temp/a.tmp" ["temp\\*"] = some false ∧
      SpecMatchesPattern "temp/a.tmp" ["temp\\*"]) := by
  refine ⟨⟨by decide, ?_⟩, ⟨by decide, ?_⟩, ⟨by decide, ?_⟩⟩
  · intro h
    exact absurd ((specMatchesPattern_singleton _ _).mp h) (by decide)
  · exact (specMatchesPattern_singleton _ _).mpr (by decide)
  · exact (specMatchesPattern_singleton _ _).mpr (by decide)

/-- C4 (amended): restricted to patterns built only from plain characters
and the `*` / `?` wildcards (no unescaped regex metacharacter, no `+`, no
backslash) and to canonical forward-slash relative paths, `matchesPattern`
returns a boolean and that boolean is exactly the specification matching
rule of section 4.2: `*` matches zero or more non-separator characters,
`?` exactly one, other characters literally and case-insensitively, the
match is anchored, patterns with a separator test the full normalized path
while patterns without test the base name, and an empty pattern list
matches nothing. -/
theorem pattern_rule_amended :
    ∀ (filePath : String) (patterns : List String),
      (∀ p ∈ patterns, plainGlob p = true) → canonicalPath filePath = true →
      (matchesPattern filePath patterns).isSome = true ∧
      ((matchesPattern filePath patterns = some true) ↔
        SpecMatchesPattern filePath patterns) := by
  intro fp pats hplain hcanon
  have hfp : normalizeSeps fp.data = fp.data :=
    normalizeSeps_eq_self _
      (fun c hc => of_decide_eq_true (List.all_eq_true.mp hcanon c hc))
  rw [matchesPattern]
  by_cases he : pats.isEmpty
  · rw [if_pos he]
    refine ⟨rfl, ?_⟩
    constructor
    · intro h
      cases h
    · rintro ⟨p, hp, -⟩
      rw [List.isEmpty_iff] at he
      subst he
      cases hp
  · rw [if_neg he]
    obtain ⟨h1, h2⟩ :=
      matchSome_plain_iff (baseName fp.data) (normalizeSeps fp.data) pats hplain
    refine ⟨h1, h2.trans ?_⟩
    rw [SpecMatchesPattern]
    constructor
    · rintro ⟨p, hp, hm⟩
      refine ⟨p, hp, ?_⟩
      rw [hfp] at hm ⊢
      exact hm
    · rintro ⟨p, hp, hm⟩
      refine ⟨p, hp, ?_⟩
      rw [hfp] at hm ⊢
      exact hm

/-- Witness for the amended C4 at a concrete input. -/
theorem pattern_rule_amended_witness :
    (matchesPattern "a.log" ["*.log"]).isSome = true ∧
    ((matchesPattern "a.log" ["*.log"] = some true) ↔
      SpecMatchesPattern "a.log" ["*.log"]) :=
  pattern_rule_amended "a.log" ["*.log"] (by decide) (by decide)

/-- C5 (code bug): evaluation of the claimed examples on the code.  All of
them hold except the recursive one: the compiled regex for `temp/*` is
anchored `temp/[^/]*` whose star cannot cross a separator, so the deeper
path `temp/sub/a.tmp` does NOT match, although the repository's own test
(expected `skipped == 3`) and README ("excludes all files recursively in
temp directories") require it to match. -/
theorem pattern_examples_eval :
    matchesPattern "a.log" ["*.log"] = some true ∧
    matchesPattern "dir/a.log" ["*.log"] = some true ∧
    matchesPattern "temp/a.tmp" ["temp/*"] = some true ∧
    matchesPattern "temp/sub/a.tmp" ["temp/*"] = some false ∧
    matchesPattern "tempfoo/a.tmp" ["temp/*"] = some false ∧
    matchesPattern "file.log" ["*.LOG"] = some true := by
  refine ⟨by decide, by decide, by decide, by decide, by decide, by decide⟩

/-- C10: the pattern matcher is not total.  An unbalanced `(` or `[` in a
pattern makes the regular-expression construction throw (modelled by
`none`) instead of returning a boolean, and a raw `+` is interpreted as the
regex one-or-more operator rather than a literal: `a+` matches `aa` and
does not match the literal string `a+`. -/
theorem pattern_matcher_not_total :
    matchesPattern "file.txt" ["("] = none ∧
    matchesPattern "file.txt" ["["] = none ∧
    matchesPattern "aa" ["a+"] = some true ∧
    matchesPattern "a+" ["a+"] = some false := by
  refine ⟨by decide, by decide, by decide, by decide⟩

/-- C6: exclusion accounting of a successful sync.  A copy-excluded source
file counts only towards `skipped` and is never examined or copied (its
destination version, even a differing one, is unchanged); `copied` counts
exactly the non-excluded changed files and `deleted` exactly the
destination-only non-delete-excluded files; a delete-excluded
destination-only file is skipped silently, surviving unchanged and
contributing to no counter. -/
theorem exclusion_counter_spec :
    ∀ (cfg : SyncConfig) (src dst : Fs),
      patternsOk cfg.copyExclusions = true →
      patternsOk cfg.deleteExclusions = true →
      (src.files.map Prod.fst).Nodup →
      ∃ res fin, sync cfg (some src) (some dst) = (Except.ok res, some fin) ∧
        res.skipped = (src.files.map Prod.fst).countP (fun rel =>
          decide (matchesPattern (joinPath rel) cfg.copyExclusions = some true)) ∧
        res.copied = (src.files.map Prod.fst).countP (fun rel =>
          decide (matchesPattern (joinPath rel) cfg.copyExclusions = some false) &&
          filesAreDifferent (lookupFile src.files rel) (lookupFile dst.files rel)) ∧
        res.deleted = (dst.files.map Prod.fst).countP (fun rel =>
          decide (rel ∉ src.files.map Prod.fst) &&
          decide (matchesPattern (joinPath rel) cfg.deleteExclusions = some false)) ∧
        (∀ rel ∈ src.files.map Prod.fst,
          matchesPattern (joinPath rel) cfg.copyExclusions = some true →
          lookupFile fin.files rel = lookupFile dst.files rel) ∧
        (∀ rel : RPath, rel ∉ src.files.map Prod.fst →
          matchesPattern (joinPath rel) cfg.deleteExclusions = some true →
          lookupFile fin.files rel = lookupFile dst.files rel) := by
  intro cfg src dst hco hde hnd
  obtain ⟨fin, heq, hchar⟩ := sync_master cfg src dst hco hde hnd
  refine ⟨_, fin, heq, rfl, rfl, rfl, ?_, ?_⟩
  · intro rel hrel hexcl
    have hdel : ¬ (rel ∈ dst.files.map Prod.fst ∧ rel ∉ src.files.map Prod.fst ∧
        matchesPattern (joinPath rel) cfg.deleteExclusions = some false) :=
      fun hh => hh.2.1 hrel
    have hcopy : ¬ (rel ∈ src.files.map Prod.fst ∧
        (decide (matchesPattern (joinPath rel) cfg.copyExclusions = some false) &&
         filesAreDifferent (lookupFile src.files rel)
           (lookupFile dst.files rel)) = true) := by
      rintro ⟨-, hh⟩
      rw [hexcl] at hh
      simp at hh
    rw [hchar rel, if_neg hdel, if_neg hcopy]
  · intro rel hnin hexcl
    have hdel : ¬ (rel ∈ dst.files.map Prod.fst ∧ rel ∉ src.files.map Prod.fst ∧
        matchesPattern (joinPath rel) cfg.deleteExclusions = some false) := by
      rintro ⟨-, -, hh⟩
      rw [hexcl] at hh
      cases hh
    have hcopy : ¬ (rel ∈ src.files.map Prod.fst ∧
        (decide (matchesPattern (joinPath rel) cfg.copyExclusions = some false) &&
         filesAreDifferent (lookupFile src.files rel)
           (lookupFile dst.files rel)) = true) :=
      fun hh => hnin hh.1
    rw [hchar rel, if_neg hdel, if_neg hcopy]

/-- Witness for C6 at a concrete sync: one excluded changed source file, one
delete-excluded destination-only file. -/
theorem exclusion_counter_spec_witness :
    ∃ res fin,
      sync { copyExclusions := ["*.log"], deleteExclusions := ["keep.cfg"] }
        (some { files := [(["a.log"], ⟨9, [1]⟩), (["b.txt"], ⟨3, [2]⟩)], dirs := [] })
        (some { files := [(["a.log"], ⟨1, [0]⟩), (["keep.cfg"], ⟨2, [5]⟩)], dirs := [] }) =
        (Except.ok res, some fin) :=
  (exclusion_counter_spec
      { copyExclusions := ["*.log"], deleteExclusions := ["keep.cfg"] }
      { files := [(["a.log"], ⟨9, [1]⟩), (["b.txt"], ⟨3, [2]⟩)], dirs := [] }
      { files := [(["a.log"], ⟨1, [0]⟩), (["keep.cfg"], ⟨2, [5]⟩)], dirs := [] }
      (by decide) (by decide) (by decide)).elim
    (fun res h => h.elim (fun fin hh => ⟨res, fin, hh.1⟩))

/-- C7: idempotence.  After a successful `sync(S, D)`, running `sync` again
with the same unchanged source yields `copied == 0`: every copy wrote the
source bytes and modification time onto the destination, so the change
detector sees equal timestamps and sizes on the second run. -/
theorem sync_idempotent :
    ∀ (cfg : SyncConfig) (src dst : Fs),
      patternsOk cfg.copyExclusions = true →
      patternsOk cfg.deleteExclusions = true →
      (src.files.map Prod.fst).Nodup →
      ∃ res1 fin1 res2 fin2,
        sync cfg (some src) (some dst) = (Except.ok res1, some fin1) ∧
        sync cfg (some src) (some fin1) = (Except.ok res2, some fin2) ∧
        res2.copied = 0 := by
  intro cfg src dst hco hde hnd
  obtain ⟨fin1, heq1, hchar1⟩ := sync_master cfg src dst hco hde hnd
  obtain ⟨fin2, heq2, -⟩ := sync_master cfg src fin1 hco hde hnd
  refine ⟨_, fin1, _, fin2, heq1, heq2, ?_⟩
  dsimp only
  rw [List.countP_eq_zero]
  intro rel hrel
  rcases Option.isSome_iff_exists.mp (lookupFile_isSome_of_mem hrel) with ⟨s, hs⟩
  intro hpred
  rw [Bool.and_eq_true] at hpred
  obtain ⟨hm, hdiff⟩ := hpred
  have hmc : matchesPattern (joinPath rel) cfg.copyExclusions = some false :=
    of_decide_eq_true hm
  have hdel : ¬ (rel ∈ dst.files.map Prod.fst ∧ rel ∉ src.files.map Prod.fst ∧
      matchesPattern (joinPath rel) cfg.deleteExclusions = some false) :=
    fun hh => hh.2.1 hrel
  by_cases hcopy : rel ∈ src.files.map Prod.fst ∧
      (decide (matchesPattern (joinPath rel) cfg.copyExclusions = some false) &&
       filesAreDifferent (lookupFile src.files rel)
         (lookupFile dst.files rel)) = true
  · have hlook : lookupFile fin1.files rel =
        (lookupFile src.files rel).map (fun f => ⟨f.mtime, f.content⟩) := by
      rw [hchar1 rel, if_neg hdel, if_pos hcopy]
    rw [hlook, hs] at hdiff
    simp [filesAreDifferent, FsFile.size] at hdiff
  · have hlook : lookupFile fin1.files rel = lookupFile dst.files rel := by
      rw [hchar1 rel, if_neg hdel, if_neg hcopy]
    rw [hlook] at hdiff
    have hfd : filesAreDifferent (lookupFile src.files rel)
        (lookupFile dst.files rel) = false := by
      rcases Bool.eq_false_or_eq_true (filesAreDifferent (lookupFile src.files rel)
          (lookupFile dst.files rel)) with h | h
      · exact absurd ⟨hrel, by
          rw [Bool.and_eq_true]
          exact ⟨decide_eq_true hmc, h⟩⟩ hcopy
      · exact h
    rw [hfd] at hdiff
    cases hdiff

/-- Witness for C7 at a concrete sync. -/
theorem sync_idempotent_witness :
    ∃ res1 fin1 res2 fin2,
      sync {} (some { files := [(["a.txt"], ⟨3, [1]⟩)], dirs := [] })
          (some { files := [], dirs := [] }) = (Except.ok res1, some fin1) ∧
      sync {} (some { files := [(["a.txt"], ⟨3, [1]⟩)], dirs := [] })
          (some fin1) = (Except.ok res2, some fin2) ∧
      res2.copied = 0 :=
  sync_idempotent {} { files := [(["a.txt"], ⟨3, [1]⟩)], dirs := [] }
    { files := [], dirs := [] } (by decide) (by decide) (by decide)

/-- C8: empty-directory cleanup.  The processed order is by path depth
descending (a sorted permutation of the destination directory list); the
cleanup never touches files; a directory present at the corresponding
source path is never removed; a directory with a remaining file child, or
whose directory child survives cleanup, is never removed (only empty
directories are removed); and in the nested scenario both `a/` and `a/b/`
(absent from source, empty) are removed, while a directory still holding an
excluded file is kept.  In the model cleanup is a total function folded
after the delete phase, so it cannot abort the sync. -/
theorem cleanup_directories_spec :
    (∀ l : List RPath,
      List.Sorted (fun a b : RPath => b.length ≤ a.length) (sortByDepthDesc l) ∧
      List.Perm (sortByDepthDesc l) l) ∧
    (∀ src dst : Fs, (cleanupEmptyDirectories src dst).files = dst.files) ∧
    (∀ (src dst : Fs) (d : RPath),
      d ∈ (cleanupEmptyDirectories src dst).dirs → d ∈ dst.dirs) ∧
    (∀ (src dst : Fs) (d : RPath), pathAccessible src d = true → d ∈ dst.dirs →
      d ∈ (cleanupEmptyDirectories src dst).dirs) ∧
    (∀ (src dst : Fs) (d : RPath) (n : String) (f : FsFile),
      lookupFile dst.files (d ++ [n]) = some f → d ∈ dst.dirs →
      d ∈ (cleanupEmptyDirectories src dst).dirs) ∧
    (∀ (src dst : Fs) (d : RPath) (n : String),
      d ∈ dst.dirs → (d ++ [n]) ∈ (cleanupEmptyDirectories src dst).dirs →
      d ∈ (cleanupEmptyDirectories src dst).dirs) ∧
    (cleanupEmptyDirectories { files := [], dirs := [] }
        { files := [], dirs := [["a"], ["a", "b"]] } =
      { files := [], dirs := [] }) ∧
    (cleanupEmptyDirectories { files := [], dirs := [] }
        { files := [(["a", "keep.cfg"], ⟨1, [0]⟩)], dirs := [["a"]] } =
      { files := [(["a", "keep.cfg"], ⟨1, [0]⟩)], dirs := [["a"]] }) := by
  refine ⟨?_, ?_, ?_, ?_, ?_, ?_, by decide, by decide⟩
  · intro l
    exact ⟨sortByDepthDesc_sorted l, sortByDepthDesc_perm l⟩
  · intro src dst
    exact cleanup_foldl_files src _ dst
  · intro src dst d h
    exact cleanup_foldl_dirs_subset src _ dst d h
  · intro src dst d hacc hd
    exact cleanup_foldl_keeps_accessible src _ dst d hacc hd
  · intro src dst d n f hf hd
    exact cleanup_foldl_keeps_nonempty src _ dst d n f hf hd
  · intro src dst d n hd hchild
    exact cleanup_foldl_keeps_parent src _ dst d n hd hchild

/-- Witness for C8 at a concrete input: a directory present in the source
survives cleanup. -/
theorem cleanup_directories_spec_witness :
    ["a"] ∈ (cleanupEmptyDirectories { files := [], dirs := [["a"]] }
      { files := [], dirs := [["a"]] }).dirs :=
  cleanup_directories_spec.2.2.2.1 { files := [], dirs := [["a"]] }
    { files := [], dirs := [["a"]] } ["a"] (by decide) (by decide)

/-- C9: Tree Walker error behaviour.  A nonexistent root (`readdir` throws
ENOENT) yields an empty result for both walkers; any non-ENOENT error at
the root propagates; more generally a non-ENOENT `readdir` failure anywhere
in the tree aborts the walk with a non-ENOENT error, and a tree whose only
failures are ENOENT is walked to a successful result. -/
theorem walker_error_spec :
    (∀ pre : RPath,
      getFilesRecursively (WalkNode.failing "ENOENT") pre = Except.ok [] ∧
      getDirectoriesRecursively (WalkNode.failing "ENOENT") pre = Except.ok []) ∧
    (∀ (pre : RPath) (code : String), code ≠ "ENOENT" →
      getFilesRecursively (WalkNode.failing code) pre = Except.error code ∧
      getDirectoriesRecursively (WalkNode.failing code) pre = Except.error code) ∧
    (∀ (n : WalkNode) (pre : RPath), nodeHasHardFailure n = true →
      (∃ c, c ≠ "ENOENT" ∧ getFilesRecursively n pre = Except.error c) ∧
      (∃ c, c ≠ "ENOENT" ∧ getDirectoriesRecursively n pre = Except.error c)) ∧
    (∀ (n : WalkNode) (pre : RPath), nodeHasHardFailure n = false →
      (∃ l, getFilesRecursively n pre = Except.ok l) ∧
      (∃ l, getDirectoriesRecursively n pre = Except.ok l)) := by
  refine ⟨?_, ?_, ?_, ?_⟩
  · intro pre
    exact ⟨rfl, rfl⟩
  · intro pre code hc
    constructor
    · rw [getFilesRecursively, if_neg hc]
    · rw [getDirectoriesRecursively, if_neg hc]
  · intro n pre h
    exact ⟨(walkFilesNode_spec n pre).1 h, (walkDirsNode_spec n pre).1 h⟩
  · intro n pre h
    exact ⟨(walkFilesNode_spec n pre).2 h, (walkDirsNode_spec n pre).2 h⟩

/-- Witness for C9 at a concrete input: a permission error at the root
propagates for both walkers. -/
theorem walker_error_spec_witness :
    getFilesRecursively (WalkNode.failing "EACCES") [] = Except.error "EACCES" ∧
    getDirectoriesRecursively (WalkNode.failing "EACCES") [] =
      Except.error "EACCES" :=
  walker_error_spec.2.1 [] "EACCES" (by decide)

end IdaSync
